import Mathlib

/-!
Verification of `tools/html_to_md.py` (HTML → Markdown converter).

The source program parses HTML with BeautifulSoup, removes noise nodes
(scripts, styles, comments, hidden elements, meta/link tags), extracts the
`body` subtree when present, renders the tree to Markdown via a markdownify
subclass with overridden `convert_a` / `convert_img`, and finally normalizes
whitespace on the resulting string.

The embedding below works on the parsed document tree (parsing itself is done
by the external BeautifulSoup library) and on Python string semantics
restricted to the operations the program uses: `re.sub(r"\n{3,}", "\n\n", s)`,
`str.splitlines`, `str.rstrip`, `str.strip`, `"\n".join`, and the regex
search `re.compile(r"display\s*:\s*none", re.I).search`.
-/

/-- Python `str.isspace` / whitespace set used by `strip`/`rstrip` and by the
regex class `\s` (with Unicode semantics, as Python uses for `str` patterns):
ASCII space, `\t`, `\n`, `\v`, `\f`, `\r`, the separator control characters
`\x1c`-`\x1f`, `\x85`, `\xa0`, and the Unicode space characters. -/
def pyIsSpace (c : Char) : Bool :=
  let n := c.toNat
  (9 ≤ n && n ≤ 13) || n = 32 || (28 ≤ n && n ≤ 31) || n = 0x85 || n = 0xa0 ||
  n = 0x1680 || (0x2000 ≤ n && n ≤ 0x200a) || n = 0x2028 || n = 0x2029 ||
  n = 0x202f || n = 0x205f || n = 0x3000

/-- The line-boundary characters recognized by Python `str.splitlines`:
`\n`, `\r` (with `\r\n` counting as a single break), `\v`, `\f`,
`\x1c`-`\x1e`, `\x85`, ` `, ` `. -/
def isLineBreak (c : Char) : Bool :=
  let n := c.toNat
  n = 10 || n = 13 || n = 11 || n = 12 || (28 ≤ n && n ≤ 30) || n = 0x85 ||
  n = 0x2028 || n = 0x2029

/-- Python `str.rstrip()`: remove the maximal run of trailing whitespace. -/
def pyRstrip : List Char → List Char
  | [] => []
  | c :: cs =>
    match pyRstrip cs with
    | [] => if pyIsSpace c then [] else [c]
    | r => c :: r

/-- Python `str.lstrip()`: remove the maximal run of leading whitespace. -/
def pyLstrip (cs : List Char) : List Char := cs.dropWhile pyIsSpace

/-- Python `str.strip()`: remove whitespace at both ends. -/
def pyStrip (cs : List Char) : List Char := pyRstrip (pyLstrip cs)

/-- Python `str.splitlines()` (without keepends): split at every line-boundary
character, `\r\n` counting as one boundary; a trailing boundary does not
produce a final empty line, and the empty string has no lines. -/
def pySplitlines : List Char → List (List Char)
  | [] => []
  | '\r' :: '\n' :: rest => [] :: pySplitlines rest
  | c :: rest =>
    if isLineBreak c then [] :: pySplitlines rest
    else
      match pySplitlines rest with
      | [] => [[c]]
      | l :: ls => (c :: l) :: ls

/-- The replacement emitted for a run of `n` consecutive newlines by
`re.sub(r"\n{3,}", "\n\n", ·)`: runs of three or more become two. -/
def emitNl (n : Nat) : List Char :=
  if 3 ≤ n then ['\n', '\n'] else List.replicate n '\n'

/-- Scanner for `re.sub(r"\n{3,}", "\n\n", ·)`; `n` counts the pending run of
newlines already consumed. -/
def collapseAux : List Char → Nat → List Char
  | [], n => emitNl n
  | c :: rest, n =>
    if c = '\n' then collapseAux rest (n + 1)
    else emitNl n ++ c :: collapseAux rest 0

/-- `re.sub(r"\n{3,}", "\n\n", s)`: collapse every maximal run of three or
more newlines to exactly two. -/
def collapseNl (cs : List Char) : List Char := collapseAux cs 0

/-- Python `"\n".join(lines)`. -/
def joinNl : List (List Char) → List Char
  | [] => []
  | [l] => l
  | l :: ls => l ++ '\n' :: joinNl ls

/-- The post-processing block of `convert_html`, on character lists:
`markdown = re.sub(r"\n{3,}", "\n\n", markdown)`;
`markdown = "\n".join(line.rstrip() for line in markdown.splitlines())`;
`markdown = markdown.strip() + "\n"`. -/
def postprocessL (cs : List Char) : List Char :=
  pyStrip (joinNl ((pySplitlines (collapseNl cs)).map pyRstrip)) ++ ['\n']

/-- The post-processing block of `convert_html`, on strings. -/
def postprocess (s : String) : String := String.mk (postprocessL s.toList)

/-- Does pattern `p` lead (start) the list `s`? -/
def leadsList : List Char → List Char → Bool
  | [], _ => true
  | _ :: _, [] => false
  | p :: ps, c :: cs => decide (p = c) && leadsList ps cs

/-- Does pattern `p` occur as a contiguous substring of `s`? -/
def occursIn (p : List Char) : List Char → Bool
  | [] => leadsList p []
  | c :: rest => leadsList p (c :: rest) || occursIn p rest

/-- Substring occurrence on strings. -/
def strOccurs (p s : String) : Bool := occursIn p.toList s.toList

/-- ASCII lower-casing, used to model the `re.I` flag on an ASCII pattern. -/
def lowerAscii (c : Char) : Char :=
  if 'A' ≤ c ∧ c ≤ 'Z' then Char.ofNat (c.toNat + 32) else c

/-- If pattern `p` leads `s`, return the remainder of `s`. -/
def dropLeads : List Char → List Char → Option (List Char)
  | [], s => some s
  | _ :: _, [] => none
  | p :: ps, c :: cs => if p = c then dropLeads ps cs else none

/-- Does the regex `display\s*:\s*none` match at the head of `cs`
(`cs` already lower-cased)? -/
def dnAt (cs : List Char) : Bool :=
  match dropLeads ("display".toList) cs with
  | none => false
  | some r1 =>
    match r1.dropWhile pyIsSpace with
    | ':' :: r2 => leadsList ("none".toList) (r2.dropWhile pyIsSpace)
    | _ => false

/-- Does `f` hold on some suffix of the list? -/
def anyTail (f : List Char → Bool) : List Char → Bool
  | [] => f []
  | c :: rest => f (c :: rest) || anyTail f rest

/-- `re.compile(r"display\s*:\s*none", re.I).search(v) is not None`: an
unanchored, case-insensitive search of the raw `style` attribute value. -/
def containsDisplayNone (v : String) : Bool :=
  anyTail dnAt (v.toList.map lowerAscii)

/-- A node of the parsed document tree: an element (tag name, attributes,
children), a text node, or a comment node. Tag names are as produced by the
lenient parser (`html.parser` lower-cases them). -/
inductive HtmlNode where
  | element : String → List (String × String) → List HtmlNode → HtmlNode
  | text : String → HtmlNode
  | comment : String → HtmlNode

/-- Attribute lookup in an element's attribute mapping. -/
def lookupAttr : List (String × String) → String → Option String
  | [], _ => none
  | (k, v) :: rest, key => if k = key then some v else lookupAttr rest key

/-- Python `el.get(key, "")`: attribute value, defaulting to the empty
string when the attribute is absent. -/
def attrValue (attrs : List (String × String)) (key : String) : String :=
  (lookupAttr attrs key).getD ""

/-- Does the element carry a `style` attribute matching the hidden-element
pattern? (`soup.find_all(attrs={"style": re.compile(r"display\s*:\s*none",
re.I)})` matches exactly the elements with a `style` attribute whose value
the regex search accepts.) -/
def hiddenStyle (attrs : List (String × String)) : Bool :=
  match lookupAttr attrs "style" with
  | some v => containsDisplayNone v
  | none => false

mutual

/-- The Cleaner of `convert_html`: `decompose` every `script`/`style`/
`noscript`/`iframe` element, `extract` every comment, `decompose` every
element whose `style` attribute matches the `display\s*:\s*none` search,
and `decompose` every `meta` and `link` element. The four sequential
passes of the source commute (each predicate is context-free), so they are
modelled as one recursive pass: a node is dropped, with its whole subtree,
exactly when it matches one of the predicates. -/
def cleanNode : HtmlNode → Option HtmlNode
  | .text s => some (.text s)
  | .comment _ => none
  | .element tag attrs children =>
    if tag = "script" ∨ tag = "style" ∨ tag = "noscript" ∨ tag = "iframe" then
      none
    else if hiddenStyle attrs then none
    else if tag = "meta" ∨ tag = "link" then none
    else some (.element tag attrs (cleanNodes children))

/-- The Cleaner applied to a sequence of sibling nodes. -/
def cleanNodes : List HtmlNode → List HtmlNode
  | [] => []
  | n :: ns =>
    match cleanNode n with
    | some m => m :: cleanNodes ns
    | none => cleanNodes ns

end

mutual

/-- `soup.find("body")`: first element named `body` in pre-order. -/
def findBodyNode : HtmlNode → Option HtmlNode
  | .element tag attrs children =>
    if tag = "body" then some (.element tag attrs children)
    else findBodyList children
  | _ => none

/-- `find("body")` over a sequence of sibling nodes. -/
def findBodyList : List HtmlNode → Option HtmlNode
  | [] => none
  | n :: ns =>
    match findBodyNode n with
    | some b => some b
    | none => findBodyList ns

end

/-- The `convert_a` override of `LoopMarkdownConverter`, with `href` and
`title` the attribute values (absent → empty) and `text` the rendered inner
content:
`if not text.strip() and not href: return ""`,
`if not href: return text`,
`if title: return f'[{text}]({href} "{title}")'`,
`return f"[{text}]({href})"`. -/
def convert_a (href title text : String) : String :=
  if pyStrip text.toList = [] ∧ href = "" then ""
  else if href = "" then text
  else if title ≠ "" then
    "[" ++ text ++ "](" ++ href ++ " \"" ++ title ++ "\")"
  else "[" ++ text ++ "](" ++ href ++ ")"

/-- The `convert_img` override of `LoopMarkdownConverter`, with `alt`, `src`,
`title` the attribute values (absent → empty):
`if not src: return ""`,
`if title: return f'![{alt}]({src} "{title}")'`,
`return f"![{alt}]({src})"`. -/
def convert_img (alt src title : String) : String :=
  if src = "" then ""
  else if title ≠ "" then
    "![" ++ alt ++ "](" ++ src ++ " \"" ++ title ++ "\")"
  else "![" ++ alt ++ "](" ++ src ++ ")"

mutual

/-- Modelled from the spec: the Renderer is the external `markdownify`
library (only its subclass overrides `convert_a`/`convert_img` are source
code of this repository, and they are embedded exactly above). Per spec
§4.2, text nodes render as their content, comments render as nothing,
`a` and `img` elements follow the overridden link/image rules, a `p`
element renders as its content followed by a blank line, and every other
element is a generic container rendering as the concatenation of its
children. -/
def renderNode : HtmlNode → String
  | .text s => s
  | .comment _ => ""
  | .element tag attrs children =>
    let inner := renderList children
    if tag = "a" then
      convert_a (attrValue attrs "href") (attrValue attrs "title") inner
    else if tag = "img" then
      convert_img (attrValue attrs "alt") (attrValue attrs "src")
        (attrValue attrs "title")
    else if tag = "p" then
      if inner = "" then "" else inner ++ "\n\n"
    else inner

/-- Modelled from the spec: rendering of a sequence of sibling nodes
(concatenation, in order). -/
def renderList : List HtmlNode → String
  | [] => ""
  | n :: ns => renderNode n ++ renderList ns

end

/-- `convert_html` on the parsed document tree: clean the tree, extract the
`body` subtree if one exists, render to Markdown, and post-process. -/
def convert_html (doc : List HtmlNode) : String :=
  let cleaned := cleanNodes doc
  let rendered :=
    match findBodyList cleaned with
    | some b => renderNode b
    | none => renderList cleaned
  postprocess rendered

/-- The three-newline pattern whose absence the spec asserts. -/
def nl3 : List Char := ['\n', '\n', '\n']

/-- A whitespace character other than the newline itself. -/
def wsNotLF (c : Char) : Bool := pyIsSpace c && !decide (c = '\n')

/-- Every line-boundary character occurring in the list is a plain `\n`. -/
def onlyLF (cs : List Char) : Bool :=
  cs.all fun c => !isLineBreak c || decide (c = '\n')

/-- No whitespace character other than `\n` stands immediately before a
`\n`: with `onlyLF`, this says no line except possibly the last carries
trailing whitespace. -/
def noWsLFpairs : List Char → Bool
  | c :: d :: rest => !(wsNotLF c && decide (d = '\n')) && noWsLFpairs (d :: rest)
  | _ => true

/-- The final character, if any, is not whitespace-other-than-`\n`: with
`onlyLF` and `noWsLFpairs`, the last line carries no trailing whitespace
either. -/
def lastNotWsLF : List Char → Bool
  | [] => true
  | [c] => !wsNotLF c
  | _ :: c :: rest => lastNotWsLF (c :: rest)

/-- The final character, if any, is not whitespace at all. -/
def lastNonWs : List Char → Bool
  | [] => true
  | [c] => !pyIsSpace c
  | _ :: c :: rest => lastNonWs (c :: rest)

/-- The lines of a string under the `\n` separator (the only separator that
can remain after the post-processor joins with `"\n"`). -/
def linesLF : List Char → List (List Char)
  | [] => [[]]
  | c :: rest =>
    if c = '\n' then [] :: linesLF rest
    else
      match linesLF rest with
      | [] => [[c]]
      | l :: ls => (c :: l) :: ls

/-- A line does not end with a space or a tab character. -/
def lineOkST : List Char → Bool
  | [] => true
  | [c] => !(decide (c = ' ') || decide (c = '\t'))
  | _ :: c :: rest => lineOkST (c :: rest)

/-- No line of the list (under the `\n` separator) ends with a space or a
tab. -/
def goodLines (cs : List Char) : Bool := (linesLF cs).all lineOkST

/-- Remove one trailing `\n` if present (how `"\n".join(s.splitlines())`
relates to `s` when `\n` is the only break character in `s`). -/
def removeLastLF : List Char → List Char
  | [] => []
  | [c] => if c = '\n' then [] else [c]
  | c :: rest => c :: removeLastLF rest

/-- The string ends with exactly one newline: its last character is `\n`
and the character before it, when present, is not `\n`. -/
def endsOneLF (s : String) : Bool :=
  match s.toList.reverse with
  | [] => false
  | c :: rest =>
    decide (c = '\n') &&
      (match rest with
       | [] => true
       | d :: _ => !decide (d = '\n'))

/-! ### Lemmas about `pyRstrip`, `pyLstrip`, `pyStrip` -/

theorem pyRstrip_cons (c : Char) (cs : List Char) :
    pyRstrip (c :: cs) =
      match pyRstrip cs with
      | [] => if pyIsSpace c then [] else [c]
      | r => c :: r := rfl

theorem pyRstrip_cons_of_nil {cs : List Char} (c : Char) (h : pyRstrip cs = []) :
    pyRstrip (c :: cs) = if pyIsSpace c then [] else [c] := by
  rw [pyRstrip_cons, h]

theorem pyRstrip_cons_of_ne {cs : List Char} (c : Char) (h : pyRstrip cs ≠ []) :
    pyRstrip (c :: cs) = c :: pyRstrip cs := by
  rw [pyRstrip_cons]
  cases h' : pyRstrip cs with
  | nil => exact absurd h' h
  | cons a as => rfl

theorem pyRstrip_head (c : Char) (cs : List Char) :
    pyRstrip (c :: cs) = [] ∨ ∃ t, pyRstrip (c :: cs) = c :: t := by
  by_cases h : pyRstrip cs = []
  · rw [pyRstrip_cons_of_nil c h]
    by_cases hs : pyIsSpace c = true
    · left; simp [hs]
    · right; exact ⟨[], by simp [hs]⟩
  · right; exact ⟨pyRstrip cs, pyRstrip_cons_of_ne c h⟩

theorem pyRstrip_decomp (l : List Char) :
    ∃ w, l = pyRstrip l ++ w ∧ w.all pyIsSpace = true := by
  induction l with
  | nil => exact ⟨[], rfl, rfl⟩
  | cons c cs ih =>
    obtain ⟨w, hw, hall⟩ := ih
    by_cases h : pyRstrip cs = []
    · rw [h] at hw
      simp only [List.nil_append] at hw
      rw [pyRstrip_cons_of_nil c h]
      by_cases hs : pyIsSpace c = true
      · refine ⟨c :: cs, by simp [hs], ?_⟩
        rw [List.all_cons, hs, Bool.true_and, hw]
        exact hall
      · refine ⟨cs, by simp [hs], ?_⟩
        rw [hw]; exact hall
    · rw [pyRstrip_cons_of_ne c h]
      exact ⟨w, by rw [List.cons_append, ← hw], hall⟩

theorem pyRstrip_last {l t : List Char} {c : Char}
    (h : pyRstrip l = t ++ [c]) : pyIsSpace c = false := by
  induction l generalizing t with
  | nil => simp [pyRstrip] at h
  | cons d cs ih =>
    by_cases h0 : pyRstrip cs = []
    · rw [pyRstrip_cons_of_nil d h0] at h
      by_cases hs : pyIsSpace d = true
      · simp [hs] at h
      · simp only [hs, if_false] at h
        rcases t with _ | ⟨e, t'⟩
        · simp only [List.nil_append] at h
          have : d = c := by injection h
          simp only [Bool.not_eq_true] at hs
          rw [← this]; exact hs
        · rw [List.cons_append] at h
          injection h with h1 h2
          exact absurd h2.symm (List.append_ne_nil_of_right_ne_nil _ (by simp))
    · rw [pyRstrip_cons_of_ne d h0] at h
      rcases t with _ | ⟨e, t'⟩
      · simp only [List.nil_append] at h
        injection h with h1 h2
        exact absurd h2 h0
      · rw [List.cons_append] at h
        injection h with h1 h2
        exact ih h2

theorem pyRstrip_append_last {c : Char} (h : pyIsSpace c = false) (l : List Char) :
    pyRstrip (l ++ [c]) = l ++ [c] := by
  induction l with
  | nil => simp [pyRstrip, h]
  | cons d l' ih =>
    rw [List.cons_append, pyRstrip_cons_of_ne d (by rw [ih]; simp), ih]

theorem pyRstrip_append_ws {c : Char} (h : pyIsSpace c = true) (l : List Char) :
    pyRstrip (l ++ [c]) = pyRstrip l := by
  induction l with
  | nil => simp [pyRstrip, h]
  | cons d l' ih =>
    rw [List.cons_append]
    by_cases h0 : pyRstrip l' = []
    · rw [pyRstrip_cons_of_nil d (by rw [ih, h0]), pyRstrip_cons_of_nil d h0]
    · rw [pyRstrip_cons_of_ne d (by rw [ih]; exact h0),
        pyRstrip_cons_of_ne d h0, ih]

theorem pyRstrip_idem (l : List Char) : pyRstrip (pyRstrip l) = pyRstrip l := by
  rcases List.eq_nil_or_concat (pyRstrip l) with h | ⟨t, c, h⟩
  · rw [h]; rfl
  · rw [List.concat_eq_append] at h
    rw [h]
    exact pyRstrip_append_last (pyRstrip_last h) t

theorem pyRstrip_subset {l : List Char} {c : Char} (h : c ∈ pyRstrip l) :
    c ∈ l := by
  obtain ⟨w, hw, _⟩ := pyRstrip_decomp l
  rw [hw]; exact List.mem_append_left _ h

theorem dropWhile_head_not (p : Char → Bool) (xs : List Char) :
    xs.dropWhile p = [] ∨
      ∃ c t, xs.dropWhile p = c :: t ∧ p c = false := by
  induction xs with
  | nil => left; rfl
  | cons c cs ih =>
    by_cases h : p c = true
    · rw [List.dropWhile_cons, if_pos h]; exact ih
    · right
      refine ⟨c, cs, ?_, by simpa using h⟩
      rw [List.dropWhile_cons, if_neg h]

theorem dropWhile_all_pos {p : Char → Bool} {y : List Char}
    (h : y.all p = true) : y.dropWhile p = [] := by
  induction y with
  | nil => rfl
  | cons c cs ih =>
    rw [List.all_cons, Bool.and_eq_true] at h
    rw [List.dropWhile_cons, if_pos h.1]
    exact ih h.2

theorem dropWhile_append_of_all_neg {p : Char → Bool} {y : List Char}
    (z : List Char) (h : y.all p = false) :
    (y ++ z).dropWhile p = y.dropWhile p ++ z := by
  induction y with
  | nil => simp at h
  | cons c cs ih =>
    by_cases hc : p c = true
    · rw [List.all_cons, hc, Bool.true_and] at h
      rw [List.cons_append, List.dropWhile_cons, if_pos hc,
        List.dropWhile_cons, if_pos hc]
      exact ih h
    · rw [List.cons_append, List.dropWhile_cons, if_neg hc,
        List.dropWhile_cons, if_neg hc, List.cons_append]

theorem pyStrip_decomp (x : List Char) :
    ∃ w w', x = w ++ (pyStrip x ++ w') := by
  obtain ⟨w', hw', _⟩ := pyRstrip_decomp (pyLstrip x)
  refine ⟨x.takeWhile pyIsSpace, w', ?_⟩
  show x = _ ++ (pyRstrip (pyLstrip x) ++ w')
  rw [← hw']
  exact (List.takeWhile_append_dropWhile (p := pyIsSpace) (l := x)).symm

theorem pyStrip_last (x : List Char) :
    pyStrip x = [] ∨ ∃ t c, pyStrip x = t ++ [c] ∧ pyIsSpace c = false := by
  rcases List.eq_nil_or_concat (pyStrip x) with h | ⟨t, c, h⟩
  · left; exact h
  · right
    rw [List.concat_eq_append] at h
    exact ⟨t, c, h, pyRstrip_last h⟩

theorem pyStrip_head (x : List Char) :
    pyStrip x = [] ∨ ∃ c t, pyStrip x = c :: t ∧ pyIsSpace c = false := by
  rcases dropWhile_head_not pyIsSpace x with h | ⟨c, t, h, hc⟩
  · left
    show pyRstrip (pyLstrip x) = []
    unfold pyLstrip
    rw [h]; rfl
  · have hx : pyStrip x = pyRstrip (c :: t) := by
      show pyRstrip (pyLstrip x) = _
      unfold pyLstrip
      rw [h]
    rcases pyRstrip_head c t with h2 | ⟨t', h2⟩
    · left; rw [hx, h2]
    · right; exact ⟨c, t', by rw [hx, h2], hc⟩

theorem pyLstrip_of_stripped (x : List Char) :
    pyLstrip (pyStrip x) = pyStrip x := by
  rcases pyStrip_head x with h | ⟨c, t, h, hc⟩
  · rw [h]; rfl
  · rw [h]
    show (c :: t).dropWhile pyIsSpace = c :: t
    rw [List.dropWhile_cons, if_neg (by simp [hc])]

theorem pyStrip_idem (x : List Char) : pyStrip (pyStrip x) = pyStrip x := by
  show pyRstrip (pyLstrip (pyStrip x)) = pyStrip x
  rw [pyLstrip_of_stripped]
  exact pyRstrip_idem (pyLstrip x)

theorem pyStrip_subset {x : List Char} {c : Char} (h : c ∈ pyStrip x) :
    c ∈ x := by
  obtain ⟨w, w', hw⟩ := pyStrip_decomp x
  rw [hw]
  exact List.mem_append_right _ (List.mem_append_left _ h)

theorem pyStrip_append_LF (z : List Char) :
    pyStrip (z ++ ['\n']) = pyStrip z := by
  by_cases h : z.all pyIsSpace = true
  · have h1 : (z ++ ['\n']).all pyIsSpace = true := by
      rw [List.all_append, h, Bool.true_and]
      decide
    show pyRstrip (pyLstrip (z ++ ['\n'])) = pyRstrip (pyLstrip z)
    unfold pyLstrip
    rw [dropWhile_all_pos h1, dropWhile_all_pos h]
  · show pyRstrip (pyLstrip (z ++ ['\n'])) = pyRstrip (pyLstrip z)
    unfold pyLstrip
    rw [dropWhile_append_of_all_neg _ (by simpa using h)]
    exact pyRstrip_append_ws (by decide) _

/-! ### Lemmas about substring occurrence -/

theorem leadsList_append {p s : List Char} (w : List Char)
    (h : leadsList p s = true) : leadsList p (s ++ w) = true := by
  induction p generalizing s with
  | nil => rfl
  | cons a ps ih =>
    cases s with
    | nil => simp [leadsList] at h
    | cons c cs =>
      simp only [leadsList, Bool.and_eq_true] at h
      rw [List.cons_append]
      simp only [leadsList, Bool.and_eq_true]
      exact ⟨h.1, ih h.2⟩

theorem occursIn_append_left {p a : List Char} (b : List Char)
    (h : occursIn p a = true) : occursIn p (a ++ b) = true := by
  induction a with
  | nil =>
    cases p with
    | nil =>
      cases b with
      | nil => exact h
      | cons c r => simp [occursIn, leadsList]
    | cons x xs => simp [occursIn, leadsList] at h
  | cons c a' ih =>
    rw [List.cons_append]
    simp only [occursIn, Bool.or_eq_true] at h ⊢
    rcases h with h | h
    · left; exact leadsList_append b h
    · right; exact ih h

theorem occursIn_append_right {p b : List Char} (a : List Char)
    (h : occursIn p b = true) : occursIn p (a ++ b) = true := by
  induction a with
  | nil => exact h
  | cons c a' ih =>
    rw [List.cons_append]
    simp only [occursIn, Bool.or_eq_true]
    right; exact ih

theorem occursIn_append_false_right {p a b : List Char}
    (h : occursIn p (a ++ b) = false) : occursIn p b = false := by
  by_contra hc
  rw [Bool.not_eq_false] at hc
  have h2 := occursIn_append_right a hc
  rw [h] at h2
  exact Bool.false_ne_true h2

theorem occursIn_middle_false {p a m : List Char} (b : List Char)
    (h : occursIn p (a ++ (m ++ b)) = false) : occursIn p m = false := by
  by_contra hc
  rw [Bool.not_eq_false] at hc
  have h2 := occursIn_append_right a (occursIn_append_left b hc)
  rw [h] at h2
  exact Bool.false_ne_true h2

theorem occ_nl3_cons_ne {c : Char} (h : ¬ c = '\n') (z : List Char) :
    occursIn nl3 (c :: z) = occursIn nl3 z := by
  have hd : decide ('\n' = c) = false := decide_eq_false fun he => h he.symm
  simp only [occursIn, nl3, leadsList, hd, Bool.false_and, Bool.false_or]

theorem occ_nl3_of_three_head (y : List Char) :
    occursIn nl3 ('\n' :: '\n' :: '\n' :: y) = true := by
  simp [occursIn, nl3, leadsList]

/-! ### Lemmas about the newline-collapsing pass -/

theorem collapseAux_nil (n : Nat) : collapseAux [] n = emitNl n := rfl

theorem collapseAux_cons (c : Char) (cs : List Char) (n : Nat) :
    collapseAux (c :: cs) n =
      if c = '\n' then collapseAux cs (n + 1)
      else emitNl n ++ c :: collapseAux cs 0 := rfl

theorem emitNl_cases (n : Nat) :
    emitNl n = [] ∨ emitNl n = ['\n'] ∨ emitNl n = ['\n', '\n'] := by
  rcases n with _ | _ | _ | n
  · left; rfl
  · right; left; rfl
  · right; right; rfl
  · right; right
    unfold emitNl
    rw [if_pos (Nat.le_add_left 3 n)]

theorem occ_nl3_emit_prepend {c : Char} (h : ¬ c = '\n') {z : List Char}
    (hz : occursIn nl3 (c :: z) = false) (n : Nat) :
    occursIn nl3 (emitNl n ++ c :: z) = false := by
  have hd : decide ('\n' = c) = false := decide_eq_false fun he => h he.symm
  rcases emitNl_cases n with he | he | he <;> rw [he]
  · simpa using hz
  · simp only [List.singleton_append, occursIn, nl3, leadsList, hd]
    simpa [occursIn, nl3, leadsList, hd] using hz
  · simp only [List.cons_append, List.singleton_append, occursIn, nl3,
      leadsList, hd]
    simpa [occursIn, nl3, leadsList, hd] using hz

theorem collapseAux_noTriple (cs : List Char) :
    ∀ n, occursIn nl3 (collapseAux cs n) = false := by
  induction cs with
  | nil =>
    intro n
    rw [collapseAux_nil]
    rcases emitNl_cases n with he | he | he <;> rw [he] <;> decide
  | cons c cs ih =>
    intro n
    rw [collapseAux_cons]
    by_cases hc : c = '\n'
    · rw [if_pos hc]; exact ih _
    · rw [if_neg hc]
      exact occ_nl3_emit_prepend hc (by rw [occ_nl3_cons_ne hc]; exact ih 0) n

theorem collapseAux_id {x : List Char} : ∀ n,
    occursIn nl3 (List.replicate n '\n' ++ x) = false →
    collapseAux x n = List.replicate n '\n' ++ x := by
  induction x with
  | nil =>
    intro n h
    rw [collapseAux_nil, List.append_nil]
    by_cases h3 : 3 ≤ n
    · exfalso
      obtain ⟨m, rfl⟩ : ∃ m, n = m + 3 := ⟨n - 3, by omega⟩
      rw [List.append_nil, List.replicate_succ, List.replicate_succ,
        List.replicate_succ, occ_nl3_of_three_head] at h
      exact Bool.false_ne_true h.symm
    · unfold emitNl; rw [if_neg h3]
  | cons c x' ih =>
    intro n h
    rw [collapseAux_cons]
    by_cases hc : c = '\n'
    · rw [if_pos hc]
      subst hc
      have h' : occursIn nl3 (List.replicate (n + 1) '\n' ++ x') = false := by
        rw [List.replicate_succ', List.append_assoc]
        simpa using h
      rw [ih (n + 1) h', List.replicate_succ', List.append_assoc]
      simp
    · rw [if_neg hc]
      have h3 : ¬ 3 ≤ n := by
        intro h3
        obtain ⟨m, rfl⟩ : ∃ m, n = m + 3 := ⟨n - 3, by omega⟩
        rw [List.replicate_succ, List.replicate_succ, List.replicate_succ,
          List.cons_append, List.cons_append, List.cons_append,
          occ_nl3_of_three_head] at h
        exact Bool.false_ne_true h.symm
      have hemit : emitNl n = List.replicate n '\n' := by
        unfold emitNl; rw [if_neg h3]
      have hx : occursIn nl3 x' = false := by
        rw [List.append_cons] at h
        exact occursIn_append_false_right h
      rw [hemit, ih 0 (by simpa using hx)]
      simp

/-! ### Lemmas about the whitespace scanners -/

theorem wsNotLF_lf : wsNotLF '\n' = false := by decide

theorem pyIsSpace_false_of_wsNotLF {c : Char} (h : wsNotLF c = false)
    (h2 : ¬ c = '\n') : pyIsSpace c = false := by
  cases hcs : pyIsSpace c
  · rfl
  · exfalso
    unfold wsNotLF at h
    rw [hcs] at h
    simp at h
    exact h2 h

theorem wsNotLF_false_of_not_space {c : Char} (h : pyIsSpace c = false) :
    wsNotLF c = false := by
  unfold wsNotLF; rw [h]; rfl

theorem noWsLFpairs_single (c : Char) : noWsLFpairs [c] = true := rfl

theorem noWsLFpairs_cons₂ (c d : Char) (rest : List Char) :
    noWsLFpairs (c :: d :: rest) =
      (!(wsNotLF c && decide (d = '\n')) && noWsLFpairs (d :: rest)) := rfl

theorem noWsLFpairs_tail {c : Char} {r : List Char}
    (h : noWsLFpairs (c :: r) = true) : noWsLFpairs r = true := by
  cases r with
  | nil => rfl
  | cons d r' =>
    rw [noWsLFpairs_cons₂, Bool.and_eq_true] at h
    exact h.2

theorem noWsLFpairs_cons_of {c : Char} {z : List Char}
    (hpz : noWsLFpairs z = true)
    (hb : ∀ d zs, z = d :: zs → (wsNotLF c && decide (d = '\n')) = false) :
    noWsLFpairs (c :: z) = true := by
  cases z with
  | nil => rfl
  | cons d zs =>
    rw [noWsLFpairs_cons₂, Bool.and_eq_true]
    exact ⟨by rw [hb d zs rfl]; rfl, hpz⟩

theorem noWsLFpairs_cons_lf {z : List Char} (h : noWsLFpairs z = true) :
    noWsLFpairs ('\n' :: z) = true :=
  noWsLFpairs_cons_of h (fun _ _ _ => by rw [wsNotLF_lf, Bool.false_and])

theorem noWsLFpairs_of_append_left {a b : List Char}
    (h : noWsLFpairs (a ++ b) = true) : noWsLFpairs a = true := by
  induction a with
  | nil => rfl
  | cons c a' ih =>
    cases a' with
    | nil => rfl
    | cons d a'' =>
      rw [List.cons_append, List.cons_append, noWsLFpairs_cons₂,
        Bool.and_eq_true] at h
      rw [noWsLFpairs_cons₂, Bool.and_eq_true]
      exact ⟨h.1, ih (by rw [List.cons_append]; exact h.2)⟩

theorem noWsLFpairs_dropWhile {p : Char → Bool} {x : List Char}
    (h : noWsLFpairs x = true) : noWsLFpairs (x.dropWhile p) = true := by
  induction x with
  | nil => rfl
  | cons c x' ih =>
    rw [List.dropWhile_cons]
    by_cases hc : p c = true
    · rw [if_pos hc]; exact ih (noWsLFpairs_tail h)
    · rw [if_neg hc]; exact h

theorem lastNotWsLF_single (c : Char) : lastNotWsLF [c] = !wsNotLF c := rfl

theorem lastNotWsLF_cons₂ (c d : Char) (r : List Char) :
    lastNotWsLF (c :: d :: r) = lastNotWsLF (d :: r) := rfl

theorem lastNotWsLF_tail {c : Char} {r : List Char}
    (h : lastNotWsLF (c :: r) = true) : lastNotWsLF r = true := by
  cases r with
  | nil => rfl
  | cons d r' => rw [← lastNotWsLF_cons₂ c]; exact h

theorem lastNotWsLF_append (a : List Char) {b : List Char} (hb : b ≠ []) :
    lastNotWsLF (a ++ b) = lastNotWsLF b := by
  induction a with
  | nil => rfl
  | cons c a' ih =>
    rw [List.cons_append]
    cases hab : a' ++ b with
    | nil => exact absurd hab (List.append_ne_nil_of_right_ne_nil _ hb)
    | cons d r =>
      rw [lastNotWsLF_cons₂, ← hab]
      exact ih

theorem lastNotWsLF_concat (t : List Char) (c : Char) :
    lastNotWsLF (t ++ [c]) = !wsNotLF c := by
  rw [lastNotWsLF_append t (by simp), lastNotWsLF_single]

theorem noWsLFpairs_append_lf {l z : List Char}
    (hp : noWsLFpairs l = true) (hl : lastNotWsLF l = true)
    (hz : noWsLFpairs z = true) :
    noWsLFpairs (l ++ '\n' :: z) = true := by
  induction l with
  | nil => exact noWsLFpairs_cons_lf hz
  | cons c l' ih =>
    cases l' with
    | nil =>
      rw [List.singleton_append, noWsLFpairs_cons₂, Bool.and_eq_true]
      constructor
      · rw [lastNotWsLF_single] at hl
        have hw : wsNotLF c = false := by simpa using hl
        rw [hw, Bool.false_and]
        rfl
      · exact noWsLFpairs_cons_lf hz
    | cons d l'' =>
      rw [List.cons_append, List.cons_append, noWsLFpairs_cons₂,
        Bool.and_eq_true]
      rw [noWsLFpairs_cons₂, Bool.and_eq_true] at hp
      refine ⟨hp.1, ?_⟩
      rw [← List.cons_append]
      exact ih hp.2 (by rw [← lastNotWsLF_cons₂ c]; exact hl)

theorem lastNonWs_single (c : Char) : lastNonWs [c] = !pyIsSpace c := rfl

theorem lastNonWs_cons₂ (c d : Char) (r : List Char) :
    lastNonWs (c :: d :: r) = lastNonWs (d :: r) := rfl

theorem lastNonWs_append (a : List Char) {b : List Char} (hb : b ≠ []) :
    lastNonWs (a ++ b) = lastNonWs b := by
  induction a with
  | nil => rfl
  | cons c a' ih =>
    rw [List.cons_append]
    cases hab : a' ++ b with
    | nil => exact absurd hab (List.append_ne_nil_of_right_ne_nil _ hb)
    | cons d r =>
      rw [lastNonWs_cons₂, ← hab]
      exact ih

theorem lastNonWs_concat (t : List Char) (c : Char) :
    lastNonWs (t ++ [c]) = !pyIsSpace c := by
  rw [lastNonWs_append t (by simp), lastNonWs_single]

theorem lastNonWs_pyRstrip (l : List Char) : lastNonWs (pyRstrip l) = true := by
  rcases List.eq_nil_or_concat (pyRstrip l) with h | ⟨t, c, h⟩
  · rw [h]; rfl
  · rw [List.concat_eq_append] at h
    rw [h, lastNonWs_concat, pyRstrip_last h]
    rfl

theorem lastNotWsLF_of_lastNonWs {l : List Char} (h : lastNonWs l = true) :
    lastNotWsLF l = true := by
  induction l with
  | nil => rfl
  | cons c r ih =>
    cases r with
    | nil =>
      rw [lastNotWsLF_single]
      rw [lastNonWs_single] at h
      have h2 : pyIsSpace c = false := by simpa using h
      rw [wsNotLF_false_of_not_space h2]
      rfl
    | cons d r' =>
      rw [lastNotWsLF_cons₂]
      rw [lastNonWs_cons₂] at h
      exact ih h

theorem onlyLF_mem {cs : List Char} (h : onlyLF cs = true) {c : Char}
    (hc : c ∈ cs) (hb : isLineBreak c = true) : c = '\n' := by
  unfold onlyLF at h
  rw [List.all_eq_true] at h
  have h2 := h c hc
  rw [hb] at h2
  simpa using h2

theorem onlyLF_of_mem {cs : List Char}
    (h : ∀ c ∈ cs, isLineBreak c = true → c = '\n') : onlyLF cs = true := by
  unfold onlyLF
  rw [List.all_eq_true]
  intro c hc
  by_cases hb : isLineBreak c = true
  · rw [hb, h c hc hb]; simp
  · rw [Bool.not_eq_true] at hb
    rw [hb]; rfl

theorem onlyLF_tail {c : Char} {cs : List Char} (h : onlyLF (c :: cs) = true) :
    onlyLF cs = true :=
  onlyLF_of_mem fun _ hd => onlyLF_mem h (List.mem_cons_of_mem c hd)

theorem onlyLF_head {c : Char} {cs : List Char} (h : onlyLF (c :: cs) = true)
    (hb : isLineBreak c = true) : c = '\n' :=
  onlyLF_mem h (List.mem_cons_self c cs) hb

/-! ### Preservation of the scanners by the collapsing pass -/

theorem collapseAux_mem {cs : List Char} :
    ∀ (n : Nat) {c : Char}, c ∈ collapseAux cs n → c = '\n' ∨ c ∈ cs := by
  induction cs with
  | nil =>
    intro n c h
    rw [collapseAux_nil] at h
    rcases emitNl_cases n with he | he | he
    · rw [he] at h; simp at h
    · rw [he] at h; left; simpa using h
    · rw [he] at h; left; simpa using h
  | cons d cs ih =>
    intro n c h
    rw [collapseAux_cons] at h
    by_cases hd : d = '\n'
    · rw [if_pos hd] at h
      rcases ih _ h with h1 | h1
      · left; exact h1
      · right; exact List.mem_cons_of_mem d h1
    · rw [if_neg hd] at h
      rw [List.mem_append] at h
      rcases h with h | h
      · rcases emitNl_cases n with he | he | he
        · rw [he] at h; simp at h
        · rw [he] at h; left; simpa using h
        · rw [he] at h; left; simpa using h
      · rw [List.mem_cons] at h
        rcases h with h | h
        · right; rw [h]; exact List.mem_cons_self d cs
        · rcases ih 0 h with h1 | h1
          · left; exact h1
          · right; exact List.mem_cons_of_mem d h1

theorem collapseAux_onlyLF {cs : List Char} (h : onlyLF cs = true) (n : Nat) :
    onlyLF (collapseAux cs n) = true := by
  apply onlyLF_of_mem
  intro c hc hb
  rcases collapseAux_mem n hc with h1 | h1
  · exact h1
  · exact onlyLF_mem h h1 hb

theorem emitNl_ne_nil {n : Nat} (hn : 1 ≤ n) : emitNl n ≠ [] := by
  intro he
  unfold emitNl at he
  by_cases h3 : 3 ≤ n
  · rw [if_pos h3] at he; simp at he
  · rw [if_neg h3] at he
    have hlen := congrArg List.length he
    rw [List.length_replicate] at hlen
    simp at hlen
    omega

theorem collapseAux_ne_nil_pos (cs : List Char) :
    ∀ {n : Nat}, 1 ≤ n → collapseAux cs n ≠ [] := by
  induction cs with
  | nil =>
    intro n hn
    rw [collapseAux_nil]
    exact emitNl_ne_nil hn
  | cons c cs' ih =>
    intro n hn
    rw [collapseAux_cons]
    by_cases hc : c = '\n'
    · rw [if_pos hc]; exact ih (by omega)
    · rw [if_neg hc]
      intro he
      rcases List.append_eq_nil.mp he with ⟨_, h2⟩
      simp at h2

theorem collapseAux_zero_nil {cs : List Char} (h : collapseAux cs 0 = []) :
    cs = [] := by
  cases cs with
  | nil => rfl
  | cons c cs' =>
    exfalso
    rw [collapseAux_cons] at h
    by_cases hc : c = '\n'
    · rw [if_pos hc] at h
      exact collapseAux_ne_nil_pos cs' (by omega) h
    · rw [if_neg hc] at h
      rcases List.append_eq_nil.mp h with ⟨_, h2⟩
      simp at h2

theorem collapseAux_zero_head {cs : List Char}
    (h : (collapseAux cs 0).head? = some '\n') : cs.head? = some '\n' := by
  cases cs with
  | nil =>
    have h0 : collapseAux ([] : List Char) 0 = [] := rfl
    rw [h0] at h
    simp at h
  | cons c cs' =>
    by_cases hc : c = '\n'
    · rw [hc]; rfl
    · exfalso
      rw [collapseAux_cons, if_neg hc] at h
      have he0 : emitNl 0 = [] := rfl
      rw [he0, List.nil_append] at h
      simp at h
      exact hc h

theorem noWsLFpairs_replicate_lf (n : Nat) :
    noWsLFpairs (List.replicate n '\n') = true := by
  induction n with
  | zero => rfl
  | succ m ih => rw [List.replicate_succ]; exact noWsLFpairs_cons_lf ih

theorem noWsLFpairs_emit (n : Nat) : noWsLFpairs (emitNl n) = true := by
  rcases emitNl_cases n with he | he | he <;> rw [he] <;> decide

theorem lastNotWsLF_emit (n : Nat) : lastNotWsLF (emitNl n) = true := by
  rcases emitNl_cases n with he | he | he <;> rw [he] <;> decide

theorem noWsLFpairs_emit_prepend {x : List Char}
    (h : noWsLFpairs x = true) (n : Nat) :
    noWsLFpairs (emitNl n ++ x) = true := by
  rcases emitNl_cases n with he | he | he <;> rw [he]
  · simpa using h
  · rw [List.singleton_append]; exact noWsLFpairs_cons_lf h
  · rw [List.cons_append, List.singleton_append]
    exact noWsLFpairs_cons_lf (noWsLFpairs_cons_lf h)

theorem collapseAux_pairs {cs : List Char} :
    ∀ n, noWsLFpairs cs = true → lastNotWsLF cs = true →
      noWsLFpairs (collapseAux cs n) = true ∧
        lastNotWsLF (collapseAux cs n) = true := by
  induction cs with
  | nil =>
    intro n _ _
    rw [collapseAux_nil]
    exact ⟨noWsLFpairs_emit n, lastNotWsLF_emit n⟩
  | cons c cs' ih =>
    intro n hp hl
    rw [collapseAux_cons]
    by_cases hc : c = '\n'
    · rw [if_pos hc]
      exact ih _ (noWsLFpairs_tail hp) (lastNotWsLF_tail hl)
    · rw [if_neg hc]
      have hout := ih 0 (noWsLFpairs_tail hp) (lastNotWsLF_tail hl)
      by_cases hnil : collapseAux cs' 0 = []
      · rw [hnil]
        have hcs' : cs' = [] := collapseAux_zero_nil hnil
        subst hcs'
        constructor
        · exact noWsLFpairs_emit_prepend (noWsLFpairs_single c) n
        · rw [lastNotWsLF_append _ (by simp)]
          exact hl
      · constructor
        · apply noWsLFpairs_emit_prepend
          apply noWsLFpairs_cons_of hout.1
          intro d zs hdz
          by_cases hdlf : d = '\n'
          · subst hdlf
            have hh : (collapseAux cs' 0).head? = some '\n' := by
              rw [hdz]; rfl
            have hcs := collapseAux_zero_head hh
            cases cs' with
            | nil => simp at hcs
            | cons e cs'' =>
              simp only [List.head?_cons, Option.some.injEq] at hcs
              subst hcs
              rw [noWsLFpairs_cons₂, Bool.and_eq_true] at hp
              have h1 : wsNotLF c = false := by simpa using hp.1
              rw [h1, Bool.false_and]
          · have hd2 : decide (d = '\n') = false := decide_eq_false hdlf
            rw [hd2, Bool.and_false]
        · rw [lastNotWsLF_append _ (by simp)]
          cases hout' : collapseAux cs' 0 with
          | nil => exact absurd hout' hnil
          | cons d r =>
            rw [lastNotWsLF_cons₂]
            rw [hout'] at hout
            exact hout.2

/-! ### Lemmas about `pySplitlines`, `joinNl`, `removeLastLF` -/

theorem pySplitlines_cons_lf (rest : List Char) :
    pySplitlines ('\n' :: rest) = [] :: pySplitlines rest := rfl

theorem pySplitlines_crlf (rest : List Char) :
    pySplitlines ('\r' :: '\n' :: rest) = [] :: pySplitlines rest := rfl

theorem pySplitlines_cons_nb {c : Char} (hc : isLineBreak c = false)
    (rest : List Char) :
    pySplitlines (c :: rest) =
      match pySplitlines rest with
      | [] => [[c]]
      | l :: ls => (c :: l) :: ls := by
  have hr : ¬ c = '\r' := fun he => by
    rw [he] at hc; exact absurd hc (by decide)
  rw [pySplitlines.eq_def]
  split
  · simp_all
  · next heq => simp at heq; exact absurd heq.1 hr
  · next c' rest' hne heq =>
    simp only [List.cons.injEq] at heq
    obtain ⟨h1, h2⟩ := heq
    subst h1; subst h2
    rw [if_neg (by rw [hc]; simp)]

theorem pySplitlines_cons_br {c : Char} (hb : isLineBreak c = true)
    (hr : ¬ c = '\r') (rest : List Char) :
    pySplitlines (c :: rest) = [] :: pySplitlines rest := by
  rw [pySplitlines.eq_def]
  split
  · simp_all
  · next heq => simp at heq; exact absurd heq.1 hr
  · next c' rest' hne heq =>
    simp only [List.cons.injEq] at heq
    obtain ⟨h1, h2⟩ := heq
    subst h1; subst h2
    rw [if_pos hb]

theorem pySplitlines_cons_cr {rest : List Char}
    (hn : rest.head? ≠ some '\n') :
    pySplitlines ('\r' :: rest) = [] :: pySplitlines rest := by
  rw [pySplitlines.eq_def]
  split
  · simp_all
  · next heq =>
    simp only [List.cons.injEq] at heq
    obtain ⟨h1, h2⟩ := heq
    exfalso; apply hn
    rw [h2]; rfl
  · next c' rest' hne heq =>
    simp only [List.cons.injEq] at heq
    obtain ⟨h1, h2⟩ := heq
    subst h2
    rw [← h1]
    rw [if_pos (by decide)]

theorem pySplitlines_ne_nil {cs : List Char} (h : cs ≠ []) :
    pySplitlines cs ≠ [] := by
  cases cs with
  | nil => exact absurd rfl h
  | cons c rest =>
    by_cases hb : isLineBreak c = true
    · by_cases hr : c = '\r'
      · subst hr
        cases rest with
        | nil =>
          rw [pySplitlines_cons_cr (by simp)]
          simp
        | cons d r' =>
          by_cases hd : d = '\n'
          · subst hd; rw [pySplitlines_crlf]; simp
          · rw [pySplitlines_cons_cr (by simp [hd])]; simp
      · rw [pySplitlines_cons_br hb hr]; simp
    · rw [pySplitlines_cons_nb (by simpa using hb)]
      cases hr : pySplitlines rest with
      | nil => simp
      | cons l ls => simp

theorem pySplitlines_eq_nil {cs : List Char} (h : pySplitlines cs = []) :
    cs = [] := by
  by_contra hc
  exact pySplitlines_ne_nil hc h

theorem pySplitlines_no_break {cs : List Char} :
    ∀ l ∈ pySplitlines cs, ∀ c ∈ l, isLineBreak c = false := by
  induction cs using pySplitlines.induct with
  | case1 =>
    intro l hl
    simp [pySplitlines] at hl
  | case2 rest ih =>
    intro l hl
    rw [pySplitlines_crlf] at hl
    rcases List.mem_cons.mp hl with h | h
    · subst h; intro c hc; simp at hc
    · exact ih l h
  | case3 c rest hne hb ih =>
    intro l hl
    by_cases hr : c = '\r'
    · subst hr
      rw [pySplitlines_cons_cr ?hn] at hl
      case hn =>
        intro hh
        cases rest with
        | nil => simp at hh
        | cons d r' =>
          simp only [List.head?_cons, Option.some.injEq] at hh
          exact hne r' rfl (by rw [hh])
      rcases List.mem_cons.mp hl with h | h
      · subst h; intro c hc; simp at hc
      · exact ih l h
    · rw [pySplitlines_cons_br hb hr] at hl
      rcases List.mem_cons.mp hl with h | h
      · subst h; intro c hc; simp at hc
      · exact ih l h
  | case4 c rest hne hb hrest ih =>
    intro l hl
    rw [pySplitlines_cons_nb (by simpa using hb), hrest] at hl
    simp only [List.mem_singleton] at hl
    subst hl
    intro d hd
    simp only [List.mem_singleton] at hd
    subst hd
    simpa using hb
  | case5 c rest hne hb l0 ls0 hrest ih =>
    intro l hl
    rw [pySplitlines_cons_nb (by simpa using hb), hrest] at hl
    rcases List.mem_cons.mp hl with h | h
    · subst h
      intro d hd
      rcases List.mem_cons.mp hd with h2 | h2
      · subst h2; simpa using hb
      · exact ih l0 (by rw [hrest]; exact List.mem_cons_self _ _) d h2
    · exact ih l (by rw [hrest]; exact List.mem_cons_of_mem _ h)

theorem joinNl_cons {l : List Char} {ls : List (List Char)} (h : ls ≠ []) :
    joinNl (l :: ls) = l ++ '\n' :: joinNl ls := by
  cases ls with
  | nil => exact absurd rfl h
  | cons l2 ls' => rfl

theorem joinNl_cons_inner (c : Char) (l : List Char) (ls : List (List Char)) :
    joinNl ((c :: l) :: ls) = c :: joinNl (l :: ls) := by
  cases ls with
  | nil => rfl
  | cons l2 ls' => rfl

theorem removeLastLF_cons {c : Char} {rest : List Char} (h : rest ≠ []) :
    removeLastLF (c :: rest) = c :: removeLastLF rest := by
  cases rest with
  | nil => exact absurd rfl h
  | cons d r => rfl

theorem joinNl_pySplitlines {u : List Char} (h : onlyLF u = true) :
    joinNl (pySplitlines u) = removeLastLF u := by
  induction u with
  | nil => rfl
  | cons c rest ih =>
    by_cases hb : isLineBreak c = true
    · have hc : c = '\n' := onlyLF_head h hb
      subst hc
      rw [pySplitlines_cons_lf]
      by_cases hr : rest = []
      · subst hr; rfl
      · rw [joinNl_cons (pySplitlines_ne_nil hr), removeLastLF_cons hr,
          ih (onlyLF_tail h)]
        rfl
    · rw [pySplitlines_cons_nb (by simpa using hb)]
      cases hr : pySplitlines rest with
      | nil =>
        have hre : rest = [] := pySplitlines_eq_nil hr
        subst hre
        have hcn : ¬ c = '\n' := fun he => by
          rw [he] at hb; exact hb (by decide)
        have h2 : removeLastLF [c] = [c] := by
          unfold removeLastLF; rw [if_neg hcn]
        rw [h2]
        rfl
      | cons l ls =>
        have hr' : rest ≠ [] := by
          intro he; rw [he] at hr; simp [pySplitlines] at hr
        rw [joinNl_cons_inner, ← hr, ih (onlyLF_tail h), removeLastLF_cons hr']

theorem map_eq_self_of {α : Type} {f : α → α} {ls : List α}
    (h : ∀ l ∈ ls, f l = l) : ls.map f = ls := by
  induction ls with
  | nil => rfl
  | cons l ls' ih =>
    rw [List.map_cons, h l (List.mem_cons_self _ _),
      ih fun x hx => h x (List.mem_cons_of_mem _ hx)]

theorem pyRstrip_nil_eq : pyRstrip [] = [] := rfl

theorem pySplitlines_first_empty {rest : List Char} {o : List (List Char)}
    (h : pySplitlines rest = [] :: o) :
    ∃ d r', rest = d :: r' ∧ isLineBreak d = true := by
  cases rest with
  | nil => simp [pySplitlines] at h
  | cons d r' =>
    by_cases hb : isLineBreak d = true
    · exact ⟨d, r', rfl, hb⟩
    · exfalso
      rw [pySplitlines_cons_nb (by simpa using hb)] at h
      cases h' : pySplitlines r' with
      | nil => rw [h'] at h; simp at h
      | cons l ls => rw [h'] at h; simp at h

theorem pySplitlines_rstripped {cs : List Char} :
    onlyLF cs = true → noWsLFpairs cs = true → lastNotWsLF cs = true →
    ∀ l ∈ pySplitlines cs, pyRstrip l = l := by
  induction cs with
  | nil => intro _ _ _ l hl; simp [pySplitlines] at hl
  | cons c rest ih =>
    intro ho hp hl l hmem
    by_cases hb : isLineBreak c = true
    · have hc : c = '\n' := onlyLF_head ho hb
      subst hc
      rw [pySplitlines_cons_lf] at hmem
      rcases List.mem_cons.mp hmem with h | h
      · subst h; rfl
      · exact ih (onlyLF_tail ho) (noWsLFpairs_tail hp)
          (lastNotWsLF_tail hl) l h
    · rw [pySplitlines_cons_nb (by simpa using hb)] at hmem
      have hcn : ¬ c = '\n' := fun he => by
        rw [he] at hb; exact hb (by decide)
      cases hr : pySplitlines rest with
      | nil =>
        rw [hr] at hmem
        simp only [List.mem_singleton] at hmem
        subst hmem
        have hre : rest = [] := pySplitlines_eq_nil hr
        subst hre
        rw [lastNotWsLF_single] at hl
        have hw : wsNotLF c = false := by simpa using hl
        have hs : pyIsSpace c = false := pyIsSpace_false_of_wsNotLF hw hcn
        rw [pyRstrip_cons_of_nil c pyRstrip_nil_eq, if_neg (by simp [hs])]
      | cons f o =>
        rw [hr] at hmem
        rcases List.mem_cons.mp hmem with h | h
        · subst h
          by_cases hf : f = []
          · subst hf
            obtain ⟨d, r', hrest, hdb⟩ := pySplitlines_first_empty hr
            subst hrest
            have hd : d = '\n' := onlyLF_head (onlyLF_tail ho) hdb
            subst hd
            rw [noWsLFpairs_cons₂, Bool.and_eq_true] at hp
            have hw : wsNotLF c = false := by simpa using hp.1
            have hs : pyIsSpace c = false := pyIsSpace_false_of_wsNotLF hw hcn
            rw [pyRstrip_cons_of_nil c pyRstrip_nil_eq, if_neg (by simp [hs])]
          · have hfr : pyRstrip f = f :=
              ih (onlyLF_tail ho) (noWsLFpairs_tail hp) (lastNotWsLF_tail hl)
                f (by rw [hr]; exact List.mem_cons_self _ _)
            rw [pyRstrip_cons_of_ne c (by rw [hfr]; exact hf), hfr]
        · exact ih (onlyLF_tail ho) (noWsLFpairs_tail hp)
            (lastNotWsLF_tail hl) l (by rw [hr]; exact List.mem_cons_of_mem _ h)

/-! ### The post-processor in normal form -/

theorem removeLastLF_concat_lf (z : List Char) :
    removeLastLF (z ++ ['\n']) = z := by
  induction z with
  | nil => rfl
  | cons c z' ih =>
    rw [List.cons_append, removeLastLF_cons (by simp), ih]

theorem removeLastLF_concat_ne {c : Char} (hc : ¬ c = '\n') (z : List Char) :
    removeLastLF (z ++ [c]) = z ++ [c] := by
  induction z with
  | nil =>
    show removeLastLF [c] = [c]
    unfold removeLastLF
    rw [if_neg hc]
  | cons d z' ih =>
    rw [List.cons_append, removeLastLF_cons (by simp), ih]

theorem pyStrip_removeLastLF (y : List Char) :
    pyStrip (removeLastLF y) = pyStrip y := by
  rcases List.eq_nil_or_concat y with h | ⟨t, c, h⟩
  · subst h; rfl
  · rw [List.concat_eq_append] at h
    subst h
    by_cases hc : c = '\n'
    · subst hc
      rw [removeLastLF_concat_lf, pyStrip_append_LF]
    · rw [removeLastLF_concat_ne hc]

theorem postprocessL_eq_strip_collapse {cs : List Char}
    (ho : onlyLF cs = true) (hp : noWsLFpairs cs = true)
    (hl : lastNotWsLF cs = true) :
    postprocessL cs = pyStrip (collapseNl cs) ++ ['\n'] := by
  unfold postprocessL
  have ho' : onlyLF (collapseNl cs) = true := collapseAux_onlyLF ho 0
  have hpl' : noWsLFpairs (collapseNl cs) = true ∧
      lastNotWsLF (collapseNl cs) = true := collapseAux_pairs 0 hp hl
  have hmap : (pySplitlines (collapseNl cs)).map pyRstrip =
      pySplitlines (collapseNl cs) :=
    map_eq_self_of (pySplitlines_rstripped ho' hpl'.1 hpl'.2)
  rw [hmap, joinNl_pySplitlines ho', pyStrip_removeLastLF]

theorem occursIn_cons_false {p : List Char} {d : Char} {y : List Char}
    (h : occursIn p (d :: y) = false) : occursIn p y = false :=
  occursIn_append_false_right (a := [d]) (by simpa using h)

theorem occ_nl3_concat_lf {t : List Char} {c : Char}
    (hc : pyIsSpace c = false) :
    occursIn nl3 (t ++ [c]) = false →
    occursIn nl3 ((t ++ [c]) ++ ['\n']) = false := by
  have hcn : ¬ c = '\n' := fun he => by rw [he] at hc; exact absurd hc (by decide)
  induction t with
  | nil =>
    intro _
    simp only [List.nil_append, List.cons_append]
    simp [occursIn, leadsList, nl3, Ne.symm hcn]
  | cons d t' ih =>
    intro h
    have htail : occursIn nl3 (t' ++ [c]) = false := by
      rw [List.cons_append] at h
      exact occursIn_cons_false h
    have hX := ih htail
    rw [List.cons_append, List.cons_append]
    by_cases hd : d = '\n'
    · subst hd
      have hll : leadsList ['\n', '\n'] ((t' ++ [c]) ++ ['\n']) = false := by
        cases t' with
        | nil =>
          simp [leadsList, Ne.symm hcn]
        | cons e t'' =>
          by_cases he : e = '\n'
          · subst he
            cases t'' with
            | nil =>
              simp [leadsList, Ne.symm hcn]
            | cons f t''' =>
              by_cases hf : f = '\n'
              · exfalso
                subst hf
                rw [List.cons_append, List.cons_append, List.cons_append,
                  occ_nl3_of_three_head] at h
                exact Bool.false_ne_true h.symm
              · simp [leadsList, Ne.symm hf]
          · simp [leadsList, Ne.symm he]
      have hstep : occursIn nl3 ('\n' :: ((t' ++ [c]) ++ ['\n'])) =
          (leadsList nl3 ('\n' :: ((t' ++ [c]) ++ ['\n'])) ||
            occursIn nl3 ((t' ++ [c]) ++ ['\n'])) := rfl
      rw [hstep]
      have h2 : leadsList nl3 ('\n' :: ((t' ++ [c]) ++ ['\n'])) = false := by
        show (decide ('\n' = '\n') &&
          leadsList ['\n', '\n'] ((t' ++ [c]) ++ ['\n'])) = false
        rw [hll, Bool.and_false]
      rw [h2, hX]
      rfl
    · rw [occ_nl3_cons_ne hd]
      exact hX

theorem noTriple_strip_collapse (y : List Char) :
    occursIn nl3 (pyStrip (collapseNl y) ++ ['\n']) = false := by
  have h1 : occursIn nl3 (collapseNl y) = false := collapseAux_noTriple y 0
  have h2 : occursIn nl3 (pyStrip (collapseNl y)) = false := by
    obtain ⟨w, w', hw⟩ := pyStrip_decomp (collapseNl y)
    rw [hw] at h1
    exact occursIn_middle_false w' h1
  rcases pyStrip_last (collapseNl y) with h3 | ⟨t, c, h3, hc⟩
  · rw [h3]; decide
  · rw [h3]
    rw [h3] at h2
    exact occ_nl3_concat_lf hc h2

/-! ### The scanner properties hold of every post-processor output -/

theorem onlyLF_joinNl {ls : List (List Char)}
    (h : ∀ l ∈ ls, ∀ c ∈ l, isLineBreak c = false) :
    onlyLF (joinNl ls) = true := by
  induction ls with
  | nil => rfl
  | cons l ls' ih =>
    cases ls' with
    | nil =>
      show onlyLF l = true
      apply onlyLF_of_mem
      intro c hc hb
      rw [h l (List.mem_cons_self _ _) c hc] at hb
      exact absurd hb (by simp)
    | cons l2 ls'' =>
      rw [joinNl_cons (by simp)]
      apply onlyLF_of_mem
      intro c hc hb
      rw [List.mem_append] at hc
      rcases hc with hc | hc
      · rw [h l (List.mem_cons_self _ _) c hc] at hb
        exact absurd hb (by simp)
      · rcases List.mem_cons.mp hc with hc2 | hc2
        · exact hc2
        · have hih := ih fun l' hl' => h l' (List.mem_cons_of_mem _ hl')
          exact onlyLF_mem hih hc2 hb

theorem noWsLFpairs_of_no_lf {l : List Char} (h : ∀ c ∈ l, ¬ c = '\n') :
    noWsLFpairs l = true := by
  induction l with
  | nil => rfl
  | cons c l' ih =>
    cases l' with
    | nil => rfl
    | cons d l'' =>
      rw [noWsLFpairs_cons₂, Bool.and_eq_true]
      constructor
      · rw [decide_eq_false
          (h d (List.mem_cons_of_mem _ (List.mem_cons_self _ _))),
          Bool.and_false]
        rfl
      · exact ih fun x hx => h x (List.mem_cons_of_mem _ hx)

theorem joinNl_pairs {ls : List (List Char)}
    (hnb : ∀ l ∈ ls, ∀ c ∈ l, isLineBreak c = false)
    (hlw : ∀ l ∈ ls, lastNonWs l = true) :
    noWsLFpairs (joinNl ls) = true ∧ lastNotWsLF (joinNl ls) = true := by
  induction ls with
  | nil => exact ⟨rfl, rfl⟩
  | cons l ls' ih =>
    have hlf_l : ∀ c ∈ l, ¬ c = '\n' := by
      intro c hc he
      have h2 := hnb l (List.mem_cons_self _ _) c hc
      rw [he] at h2
      exact absurd h2 (by decide)
    have hpl := noWsLFpairs_of_no_lf hlf_l
    have hll : lastNotWsLF l = true :=
      lastNotWsLF_of_lastNonWs (hlw l (List.mem_cons_self _ _))
    cases ls' with
    | nil => exact ⟨hpl, hll⟩
    | cons l2 ls'' =>
      have hih := ih (fun l' h' => hnb l' (List.mem_cons_of_mem _ h'))
        (fun l' h' => hlw l' (List.mem_cons_of_mem _ h'))
      rw [joinNl_cons (by simp)]
      constructor
      · exact noWsLFpairs_append_lf hpl hll hih.1
      · rw [lastNotWsLF_append _ (by simp)]
        cases hj : joinNl (l2 :: ls'') with
        | nil => decide
        | cons d r =>
          rw [lastNotWsLF_cons₂, ← hj]
          exact hih.2

theorem strip_append_lf_scanners {j : List Char}
    (hJo : onlyLF j = true) (hJp : noWsLFpairs j = true) :
    onlyLF (pyStrip j ++ ['\n']) = true ∧
      noWsLFpairs (pyStrip j ++ ['\n']) = true ∧
      lastNotWsLF (pyStrip j ++ ['\n']) = true := by
  refine ⟨?_, ?_, ?_⟩
  · apply onlyLF_of_mem
    intro c hc hb
    rw [List.mem_append] at hc
    rcases hc with hc | hc
    · exact onlyLF_mem hJo (pyStrip_subset hc) hb
    · simp only [List.mem_singleton] at hc
      exact hc
  · have hpairsS : noWsLFpairs (pyStrip j) = true := by
      obtain ⟨w, hw, _⟩ := pyRstrip_decomp (pyLstrip j)
      have hLp : noWsLFpairs (pyLstrip j) = true := noWsLFpairs_dropWhile hJp
      rw [hw] at hLp
      exact noWsLFpairs_of_append_left hLp
    have hlastS : lastNotWsLF (pyStrip j) = true := by
      rcases pyStrip_last j with h | ⟨t, c, h, hc⟩
      · rw [h]; rfl
      · rw [h, lastNotWsLF_concat, wsNotLF_false_of_not_space hc]
        rfl
    exact noWsLFpairs_append_lf hpairsS hlastS rfl
  · rw [lastNotWsLF_concat, wsNotLF_lf]
    rfl

theorem postprocessL_scanners (cs : List Char) :
    onlyLF (postprocessL cs) = true ∧
      noWsLFpairs (postprocessL cs) = true ∧
      lastNotWsLF (postprocessL cs) = true := by
  have hnb : ∀ l ∈ (pySplitlines (collapseNl cs)).map pyRstrip,
      ∀ c ∈ l, isLineBreak c = false := by
    intro l hl c hc
    rw [List.mem_map] at hl
    obtain ⟨l0, hl0, rfl⟩ := hl
    exact pySplitlines_no_break l0 hl0 c (pyRstrip_subset hc)
  have hlw : ∀ l ∈ (pySplitlines (collapseNl cs)).map pyRstrip,
      lastNonWs l = true := by
    intro l hl
    rw [List.mem_map] at hl
    obtain ⟨l0, _, rfl⟩ := hl
    exact lastNonWs_pyRstrip l0
  exact strip_append_lf_scanners (onlyLF_joinNl hnb) (joinNl_pairs hnb hlw).1

/-! ### Main results about the post-processor -/

theorem postprocessL_stable (cs : List Char) :
    postprocessL (postprocessL (postprocessL cs)) =
      postprocessL (postprocessL cs) := by
  obtain ⟨ho1, hp1, hl1⟩ := postprocessL_scanners cs
  have hNF2 : postprocessL (postprocessL cs) =
      pyStrip (collapseNl (postprocessL cs)) ++ ['\n'] :=
    postprocessL_eq_strip_collapse ho1 hp1 hl1
  obtain ⟨ho2, hp2, hl2⟩ := postprocessL_scanners (postprocessL cs)
  have hNF3 : postprocessL (postprocessL (postprocessL cs)) =
      pyStrip (collapseNl (postprocessL (postprocessL cs))) ++ ['\n'] :=
    postprocessL_eq_strip_collapse ho2 hp2 hl2
  have hNT : occursIn nl3 (postprocessL (postprocessL cs)) = false := by
    rw [hNF2]; exact noTriple_strip_collapse _
  have hCid : collapseNl (postprocessL (postprocessL cs)) =
      postprocessL (postprocessL cs) := by
    show collapseAux (postprocessL (postprocessL cs)) 0 =
      postprocessL (postprocessL cs)
    have h0 : occursIn nl3
        (List.replicate 0 '\n' ++ postprocessL (postprocessL cs)) = false := by
      simpa using hNT
    have h1 := collapseAux_id 0 h0
    simpa using h1
  rw [hNF3, hCid, hNF2, pyStrip_append_LF, pyStrip_idem]

theorem postprocessL_noTriple_of_clean {cs : List Char}
    (ho : onlyLF cs = true) (hp : noWsLFpairs cs = true)
    (hl : lastNotWsLF cs = true) :
    occursIn nl3 (postprocessL cs) = false := by
  rw [postprocessL_eq_strip_collapse ho hp hl]
  exact noTriple_strip_collapse cs

theorem endsOneLF_mk_append {w : List Char}
    (hw : w = [] ∨ ∃ t c, w = t ++ [c] ∧ pyIsSpace c = false) :
    endsOneLF (String.mk (w ++ ['\n'])) = true := by
  have h1 : (String.mk (w ++ ['\n'])).toList = w ++ ['\n'] := rfl
  unfold endsOneLF
  rw [h1, List.reverse_append, List.reverse_singleton, List.singleton_append]
  rcases hw with rfl | ⟨t, c, rfl, hc⟩
  · decide
  · rw [List.reverse_append, List.reverse_singleton, List.singleton_append]
    have hcn : ¬ c = '\n' := fun he => by
      rw [he] at hc; exact absurd hc (by decide)
    show (decide ('\n' = '\n') && !decide (c = '\n')) = true
    rw [decide_eq_false hcn]
    rfl

theorem endsOneLF_postprocess (s : String) :
    endsOneLF (postprocess s) = true := by
  unfold postprocess
  show endsOneLF (String.mk
    (pyStrip (joinNl ((pySplitlines (collapseNl s.toList)).map pyRstrip)) ++
      ['\n'])) = true
  exact endsOneLF_mk_append (pyStrip_last _)

/-! ### No line of the output ends with a space or tab -/

theorem lineOkST_single (c : Char) :
    lineOkST [c] = !(decide (c = ' ') || decide (c = '\t')) := rfl

theorem lineOkST_cons₂ (c d : Char) (r : List Char) :
    lineOkST (c :: d :: r) = lineOkST (d :: r) := rfl

theorem lineOkST_tail {c : Char} {r : List Char}
    (h : lineOkST (c :: r) = true) : lineOkST r = true := by
  cases r with
  | nil => rfl
  | cons d r' => rw [← lineOkST_cons₂ c]; exact h

theorem lineOkST_of_not_space {c : Char} (hs : pyIsSpace c = false) :
    lineOkST [c] = true := by
  have h1 : ¬ c = ' ' := fun he => by rw [he] at hs; exact absurd hs (by decide)
  have h2 : ¬ c = '\t' := fun he => by
    rw [he] at hs; exact absurd hs (by decide)
  rw [lineOkST_single, decide_eq_false h1, decide_eq_false h2]
  rfl

theorem lineOkST_of_lastNonWs {l : List Char} (h : lastNonWs l = true) :
    lineOkST l = true := by
  induction l with
  | nil => rfl
  | cons c r ih =>
    cases r with
    | nil =>
      rw [lastNonWs_single] at h
      exact lineOkST_of_not_space (by simpa using h)
    | cons d r' =>
      rw [lineOkST_cons₂]
      rw [lastNonWs_cons₂] at h
      exact ih h

theorem linesLF_nil : linesLF [] = [[]] := rfl

theorem linesLF_cons_lf (rest : List Char) :
    linesLF ('\n' :: rest) = [] :: linesLF rest := rfl

theorem linesLF_ne_nil (cs : List Char) : linesLF cs ≠ [] := by
  cases cs with
  | nil => simp [linesLF]
  | cons c rest =>
    unfold linesLF
    by_cases hc : c = '\n'
    · rw [if_pos hc]; simp
    · rw [if_neg hc]
      cases h : linesLF rest with
      | nil => simp
      | cons l ls => simp

theorem linesLF_cons_ne {c : Char} (hc : ¬ c = '\n') (rest : List Char) :
    ∃ l ls, linesLF rest = l :: ls ∧ linesLF (c :: rest) = (c :: l) :: ls := by
  cases h : linesLF rest with
  | nil => exact absurd h (linesLF_ne_nil rest)
  | cons l ls =>
    refine ⟨l, ls, rfl, ?_⟩
    unfold linesLF
    rw [if_neg hc, h]

theorem goodLines_cons_lf (rest : List Char) :
    goodLines ('\n' :: rest) = goodLines rest := by
  unfold goodLines
  rw [linesLF_cons_lf, List.all_cons]
  simp [lineOkST]

theorem goodLines_cons_of_ne {c : Char} {rest : List Char} (hc : ¬ c = '\n')
    (h : goodLines (c :: rest) = true) : goodLines rest = true := by
  obtain ⟨l, ls, hr, hcr⟩ := linesLF_cons_ne hc rest
  unfold goodLines at h ⊢
  rw [hcr, List.all_cons, Bool.and_eq_true] at h
  rw [hr, List.all_cons, Bool.and_eq_true]
  exact ⟨lineOkST_tail h.1, h.2⟩

theorem goodLines_lstrip {x : List Char} (h : goodLines x = true) :
    goodLines (pyLstrip x) = true := by
  induction x with
  | nil => exact h
  | cons c x' ih =>
    show goodLines ((c :: x').dropWhile pyIsSpace) = true
    rw [List.dropWhile_cons]
    by_cases hs : pyIsSpace c = true
    · rw [if_pos hs]
      apply ih
      by_cases hc : c = '\n'
      · subst hc; rw [← goodLines_cons_lf]; exact h
      · exact goodLines_cons_of_ne hc h
    · rw [if_neg hs]; exact h

theorem linesLF_first_empty {y : List Char} {ls : List (List Char)}
    (hy : y ≠ []) (h : linesLF y = [] :: ls) : ∃ y', y = '\n' :: y' := by
  cases y with
  | nil => exact absurd rfl hy
  | cons d y' =>
    by_cases hd : d = '\n'
    · exact ⟨y', by rw [hd]⟩
    · exfalso
      obtain ⟨l, ls', hr, hcr⟩ := linesLF_cons_ne hd y'
      rw [hcr] at h
      injection h with h1 h2
      simp at h1

theorem pyRstrip_head_eq {x : List Char} {t : List Char} {a : Char}
    (h : pyRstrip x = a :: t) : ∃ b, x = a :: b := by
  cases x with
  | nil => simp [pyRstrip] at h
  | cons d b =>
    rcases pyRstrip_head d b with h2 | ⟨t', h2⟩
    · rw [h2] at h; simp at h
    · rw [h2] at h
      injection h with h3 h4
      exact ⟨b, by rw [h3]⟩

theorem goodLines_rstrip {x : List Char} (h : goodLines x = true) :
    goodLines (pyRstrip x) = true := by
  induction x with
  | nil => exact h
  | cons c x' ih =>
    have htail : goodLines x' = true := by
      by_cases hc : c = '\n'
      · subst hc; rw [← goodLines_cons_lf]; exact h
      · exact goodLines_cons_of_ne hc h
    have hgx' : goodLines (pyRstrip x') = true := ih htail
    by_cases h0 : pyRstrip x' = []
    · rw [pyRstrip_cons_of_nil c h0]
      by_cases hs : pyIsSpace c = true
      · rw [if_pos hs]; decide
      · rw [if_neg hs]
        have hc : ¬ c = '\n' := fun he => by
          rw [he] at hs; exact hs (by decide)
        unfold goodLines
        obtain ⟨l, ls, hr, hcr⟩ := linesLF_cons_ne hc []
        rw [hcr]
        rw [linesLF_nil] at hr
        injection hr with h1 h2
        subst h1; subst h2
        rw [List.all_cons]
        rw [lineOkST_of_not_space (by simpa using hs)]
        rfl
    · rw [pyRstrip_cons_of_ne c h0]
      by_cases hc : c = '\n'
      · subst hc; rw [goodLines_cons_lf]; exact hgx'
      · obtain ⟨l, ls, hr, hcr⟩ := linesLF_cons_ne hc (pyRstrip x')
        unfold goodLines
        rw [hcr, List.all_cons, Bool.and_eq_true]
        constructor
        · cases hl : l with
          | nil =>
            subst hl
            obtain ⟨y', hy'⟩ := linesLF_first_empty h0 hr
            obtain ⟨b, hb⟩ := pyRstrip_head_eq hy'
            subst hb
            obtain ⟨l2, ls2, hr2, hcr2⟩ := linesLF_cons_ne hc ('\n' :: b)
            rw [linesLF_cons_lf] at hr2
            injection hr2 with h3 h4
            subst h3
            unfold goodLines at h
            rw [hcr2, List.all_cons, Bool.and_eq_true] at h
            exact h.1
          | cons d t =>
            rw [lineOkST_cons₂]
            unfold goodLines at hgx'
            rw [hr, List.all_cons, Bool.and_eq_true] at hgx'
            rw [← hl]
            exact hgx'.1
        · unfold goodLines at hgx'
          rw [hr, List.all_cons, Bool.and_eq_true] at hgx'
          exact hgx'.2

theorem linesLF_no_lf {l : List Char} (h : ∀ c ∈ l, ¬ c = '\n') :
    linesLF l = [l] := by
  induction l with
  | nil => rfl
  | cons c l' ih =>
    obtain ⟨l0, ls0, hr, hcr⟩ :=
      linesLF_cons_ne (h c (List.mem_cons_self _ _)) l'
    rw [hcr]
    rw [ih fun x hx => h x (List.mem_cons_of_mem _ hx)] at hr
    injection hr with h1 h2
    subst h1; subst h2
    rfl

theorem linesLF_append_lf_cons {l : List Char} (h : ∀ c ∈ l, ¬ c = '\n')
    (z : List Char) : linesLF (l ++ '\n' :: z) = l :: linesLF z := by
  induction l with
  | nil => rw [List.nil_append, linesLF_cons_lf]
  | cons c l' ih =>
    rw [List.cons_append]
    obtain ⟨l0, ls0, hr, hcr⟩ :=
      linesLF_cons_ne (h c (List.mem_cons_self _ _)) (l' ++ '\n' :: z)
    rw [hcr]
    rw [ih fun x hx => h x (List.mem_cons_of_mem _ hx)] at hr
    injection hr with h1 h2
    subst h1; subst h2
    rfl

theorem linesLF_joinNl {ls : List (List Char)} (hne : ls ≠ [])
    (h : ∀ l ∈ ls, ∀ c ∈ l, ¬ c = '\n') : linesLF (joinNl ls) = ls := by
  induction ls with
  | nil => exact absurd rfl hne
  | cons l ls' ih =>
    cases ls' with
    | nil => exact linesLF_no_lf (h l (List.mem_cons_self _ _))
    | cons l2 ls'' =>
      rw [joinNl_cons (by simp),
        linesLF_append_lf_cons (h l (List.mem_cons_self _ _)),
        ih (by simp) fun l' hl' => h l' (List.mem_cons_of_mem _ hl')]

theorem goodLines_joinNl_rstrip (u : List Char) :
    goodLines (joinNl ((pySplitlines u).map pyRstrip)) = true := by
  by_cases hls : (pySplitlines u).map pyRstrip = []
  · rw [hls]; decide
  · have hnb : ∀ l ∈ (pySplitlines u).map pyRstrip, ∀ c ∈ l, ¬ c = '\n' := by
      intro l hl c hc he
      rw [List.mem_map] at hl
      obtain ⟨x0, hx0, rfl⟩ := hl
      have h2 := pySplitlines_no_break x0 hx0 c (pyRstrip_subset hc)
      rw [he] at h2
      exact absurd h2 (by decide)
    unfold goodLines
    rw [linesLF_joinNl hls hnb, List.all_eq_true]
    intro l hl
    rw [List.mem_map] at hl
    obtain ⟨x0, _, rfl⟩ := hl
    exact lineOkST_of_lastNonWs (lastNonWs_pyRstrip x0)

theorem linesLF_append_lf_end (w : List Char) :
    linesLF (w ++ ['\n']) = linesLF w ++ [[]] := by
  induction w with
  | nil => rfl
  | cons c w' ih =>
    by_cases hc : c = '\n'
    · subst hc
      rw [List.cons_append, linesLF_cons_lf, linesLF_cons_lf, ih,
        List.cons_append]
    · obtain ⟨l, ls, hr, hcr⟩ := linesLF_cons_ne hc (w' ++ ['\n'])
      rw [List.cons_append, hcr]
      obtain ⟨l2, ls2, hr2, hcr2⟩ := linesLF_cons_ne hc w'
      rw [hcr2]
      rw [ih, hr2, List.cons_append] at hr
      injection hr.symm with h1 h2
      subst h1; subst h2
      rw [List.cons_append]

theorem goodLines_append_lf {w : List Char} (h : goodLines w = true) :
    goodLines (w ++ ['\n']) = true := by
  unfold goodLines at h ⊢
  rw [linesLF_append_lf_end, List.all_append, h]
  decide

theorem goodLines_postprocessL (cs : List Char) :
    goodLines (postprocessL cs) = true := by
  unfold postprocessL
  apply goodLines_append_lf
  show goodLines (pyRstrip (pyLstrip _)) = true
  exact goodLines_rstrip (goodLines_lstrip (goodLines_joinNl_rstrip _))

/-! ## The claims -/

/-- C1 counterexample: for the document consisting of the single text node
"a\n \n \n \nb" — whose rendered form has lines holding only a space
between blank lines — the output of `convert_html` contains three
consecutive newlines; the post-processor maps that raw string to
"a\n\n\n\nb\n", because the newline-collapsing step runs before the
per-line trailing-whitespace stripping, which turns the space-only lines
into empty lines and creates a new run of four newlines. -/
theorem c1_counterexample :
    occursIn nl3 (convert_html [.text "a\n \n \n \nb"]).toList = true ∧
      postprocess "a\n \n \n \nb" = "a\n\n\n\nb\n" :=
  ⟨by decide, by decide⟩

/-- C1 (amended): the post-processed output contains no run of three or
more consecutive newlines provided the renderer's raw output uses `\n` as
its only line-boundary character and no whitespace character other than
`\n` stands immediately before a newline or at the end — that is, no line
of the raw output (in particular no line consisting solely of spaces or
tabs) carries trailing whitespace. Without that proviso the invariant
fails, as the counterexample shows. -/
theorem c1_noTriple_of_clean_renderer_output (s : String)
    (h1 : onlyLF s.toList = true) (h2 : noWsLFpairs s.toList = true)
    (h3 : lastNotWsLF s.toList = true) :
    occursIn nl3 (postprocess s).toList = false := by
  show occursIn nl3 (postprocessL s.toList) = false
  exact postprocessL_noTriple_of_clean h1 h2 h3

/-- C1 witness: the amended theorem applied at the concrete renderer
output "ab\n\n\n\ncd". -/
theorem c1_witness :
    onlyLF "ab\n\n\n\ncd".toList = true ∧
      noWsLFpairs "ab\n\n\n\ncd".toList = true ∧
      lastNotWsLF "ab\n\n\n\ncd".toList = true ∧
      occursIn nl3 (postprocess "ab\n\n\n\ncd").toList = false :=
  ⟨by decide, by decide, by decide,
    c1_noTriple_of_clean_renderer_output "ab\n\n\n\ncd" (by decide)
      (by decide) (by decide)⟩

/-- C2 counterexample: applying the post-processing sequence twice differs
from applying it once on the string "a\n \n \n \nb": one application
yields "a\n\n\n\nb\n" (the rstrip step manufactures a fresh newline run),
and a second application collapses that run, yielding "a\n\nb\n". -/
theorem c2_counterexample :
    postprocess "a\n \n \n \nb" = "a\n\n\n\nb\n" ∧
      postprocess (postprocess "a\n \n \n \nb") = "a\n\nb\n" ∧
      decide (postprocess (postprocess "a\n \n \n \nb") =
        postprocess "a\n \n \n \nb") = false :=
  ⟨by decide, by decide, by decide⟩

/-- C2 (amended): the post-processor stabilizes after two applications:
for every string, applying the post-processing sequence (collapse newline
runs, rstrip each line, strip and append one newline) three times equals
applying it twice — it is idempotent on the output of two applications,
though not in general on the output of one. -/
theorem c2_postprocess_stable (s : String) :
    postprocess (postprocess (postprocess s)) =
      postprocess (postprocess s) := by
  show String.mk (postprocessL (postprocessL (postprocessL s.toList))) =
    String.mk (postprocessL (postprocessL s.toList))
  rw [postprocessL_stable]

/-- C3 counterexample: on the empty document, `convert_html` returns the
single-newline string "\n", not the empty string — the final
`markdown.strip() + "\n"` step appends a newline even to an empty
result. -/
theorem c3_counterexample :
    decide (convert_html [] = "") = false ∧ convert_html [] = "\n" :=
  ⟨by decide, by decide⟩

/-- C3 (amended): given the empty input, the core conversion
`convert_html` produces "\n" (a single newline), not the empty string; the
empty-output-for-empty-input behavior belongs to the CLI wrapper, which
writes an empty file without invoking `convert_html`. -/
theorem c3_convert_html_empty : convert_html [] = "\n" := by decide

/-- C4: link rendering follows the four-case rule of `convert_a` — empty
output when the rendered inner text is whitespace-only and `href` is
empty; the bare text when only `href` is empty; `[text](href "title")`
when `href` and a non-empty `title` are present; `[text](href)` otherwise
— and the three concrete anchors of the spec render accordingly. -/
theorem c4_convert_a_cases :
    (∀ href title text : String,
      (pyStrip text.toList = [] ∧ href = "" →
        convert_a href title text = "") ∧
      (pyStrip text.toList ≠ [] ∧ href = "" →
        convert_a href title text = text) ∧
      (href ≠ "" ∧ title ≠ "" →
        convert_a href title text =
          "[" ++ text ++ "](" ++ href ++ " \"" ++ title ++ "\")") ∧
      (href ≠ "" ∧ title = "" →
        convert_a href title text =
          "[" ++ text ++ "](" ++ href ++ ")")) ∧
    renderNode (.element "a"
      [("href", "https://x.com"), ("title", "t")] [.text "hi"]) =
      "[hi](https://x.com \"t\")" ∧
    renderNode (.element "a" [] [.text "hi"]) = "hi" ∧
    renderNode (.element "a" [("href", "")] []) = "" := by
  refine ⟨?_, by decide, by decide, by decide⟩
  intro href title text
  refine ⟨?_, ?_, ?_, ?_⟩
  · rintro ⟨h1, h2⟩
    unfold convert_a
    rw [if_pos ⟨h1, h2⟩]
  · rintro ⟨h1, h2⟩
    unfold convert_a
    rw [if_neg (by rintro ⟨ha, _⟩; exact h1 ha), if_pos h2]
  · rintro ⟨h1, h2⟩
    unfold convert_a
    rw [if_neg (by rintro ⟨_, hb⟩; exact h1 hb), if_neg h1, if_pos h2]
  · rintro ⟨h1, h2⟩
    unfold convert_a
    rw [if_neg (by rintro ⟨_, hb⟩; exact h1 hb), if_neg h1,
      if_neg (by simp [h2])]

/-- C4 witness: the four cases applied at concrete inputs. -/
theorem c4_witness :
    convert_a "" "t" " " = "" ∧
      convert_a "" "" "hi" = "hi" ∧
      convert_a "u" "t" "hi" =
        "[" ++ "hi" ++ "](" ++ "u" ++ " \"" ++ "t" ++ "\")" ∧
      convert_a "u" "" "hi" = "[" ++ "hi" ++ "](" ++ "u" ++ ")" :=
  ⟨(c4_convert_a_cases.1 "" "t" " ").1 ⟨by decide, rfl⟩,
    (c4_convert_a_cases.1 "" "" "hi").2.1 ⟨by decide, rfl⟩,
    (c4_convert_a_cases.1 "u" "t" "hi").2.2.1 ⟨by decide, by decide⟩,
    (c4_convert_a_cases.1 "u" "" "hi").2.2.2 ⟨by decide, rfl⟩⟩

/-- C5: image rendering follows the three-case rule of `convert_img` —
empty output when `src` is empty or absent; `![alt](src "title")` when a
non-empty `title` is present; `![alt](src)` otherwise — and the two
concrete images of the spec render accordingly. -/
theorem c5_convert_img_cases :
    (∀ alt src title : String,
      (src = "" → convert_img alt src title = "") ∧
      (src ≠ "" ∧ title ≠ "" →
        convert_img alt src title =
          "![" ++ alt ++ "](" ++ src ++ " \"" ++ title ++ "\")") ∧
      (src ≠ "" ∧ title = "" →
        convert_img alt src title = "![" ++ alt ++ "](" ++ src ++ ")")) ∧
    renderNode (.element "img" [("src", "a.png"), ("alt", "cat")] []) =
      "![cat](a.png)" ∧
    renderNode (.element "img" [("alt", "x")] []) = "" := by
  refine ⟨?_, by decide, by decide⟩
  intro alt src title
  refine ⟨?_, ?_, ?_⟩
  · intro h
    unfold convert_img
    rw [if_pos h]
  · rintro ⟨h1, h2⟩
    unfold convert_img
    rw [if_neg h1, if_pos h2]
  · rintro ⟨h1, h2⟩
    unfold convert_img
    rw [if_neg h1, if_neg (by simp [h2])]

/-- C5 witness: the three cases applied at concrete inputs. -/
theorem c5_witness :
    convert_img "cat" "" "t" = "" ∧
      convert_img "a" "s.png" "ttl" =
        "![" ++ "a" ++ "](" ++ "s.png" ++ " \"" ++ "ttl" ++ "\")" ∧
      convert_img "cat" "a.png" "" = "![" ++ "cat" ++ "](" ++ "a.png" ++ ")" :=
  ⟨(c5_convert_img_cases.1 "cat" "" "t").1 rfl,
    (c5_convert_img_cases.1 "a" "s.png" "ttl").2.1 ⟨by decide, by decide⟩,
    (c5_convert_img_cases.1 "cat" "a.png" "").2.2 ⟨by decide, rfl⟩⟩

/-- C6: after cleaning, if the cleaned tree contains a `body` element the
first such element's subtree alone is rendered, otherwise the whole
cleaned tree is; in particular the spec's document with a script inside
`head` converts to exactly "hi\n". -/
theorem c6_body_extraction :
    (∀ doc : List HtmlNode,
      (∃ b, findBodyList (cleanNodes doc) = some b ∧
        convert_html doc = postprocess (renderNode b)) ∨
      (findBodyList (cleanNodes doc) = none ∧
        convert_html doc = postprocess (renderList (cleanNodes doc)))) ∧
    convert_html [.element "html" []
      [.element "head" [] [.element "script" [] [.text "evil()"]],
       .element "body" [] [.element "p" [] [.text "hi"]]]] = "hi\n" := by
  constructor
  · intro doc
    cases h : findBodyList (cleanNodes doc) with
    | none =>
      right
      refine ⟨rfl, ?_⟩
      simp only [convert_html]
      rw [h]
    | some b =>
      left
      refine ⟨b, rfl, ?_⟩
      simp only [convert_html]
      rw [h]
  · decide

/-- C7: every element whose `style` attribute value matches the
case-insensitive unanchored search for `display`, optional whitespace,
`:`, optional whitespace, `none` is removed by the Cleaner together with
its entire subtree, before rendering; consequently the spec's example
document renders with "visible" present and "secret" absent. -/
theorem c7_hidden_removed :
    (∀ (tag : String) (attrs : List (String × String))
        (children : List HtmlNode) (v : String),
      lookupAttr attrs "style" = some v → containsDisplayNone v = true →
      cleanNode (.element tag attrs children) = none) ∧
    strOccurs "visible" (convert_html
      [.element "div" [("style", "display:none")] [.text "secret"],
       .element "p" [] [.text "visible"]]) = true ∧
    strOccurs "secret" (convert_html
      [.element "div" [("style", "display:none")] [.text "secret"],
       .element "p" [] [.text "visible"]]) = false := by
  refine ⟨?_, by decide, by decide⟩
  intro tag attrs children v hv hdn
  unfold cleanNode
  by_cases ht : tag = "script" ∨ tag = "style" ∨ tag = "noscript" ∨
      tag = "iframe"
  · rw [if_pos ht]
  · have hh : hiddenStyle attrs = true := by
      unfold hiddenStyle
      rw [hv]
      exact hdn
    rw [if_neg ht, if_pos hh]

/-- C7 witness: the removal rule applied at a concrete hidden element. -/
theorem c7_witness :
    lookupAttr [("style", "my-display: none")] "style" =
        some "my-display: none" ∧
      containsDisplayNone "my-display: none" = true ∧
      cleanNode (.element "div" [("style", "my-display: none")]
        [.text "secret"]) = none :=
  ⟨rfl, by decide,
    c7_hidden_removed.1 "div" [("style", "my-display: none")]
      [.text "secret"] "my-display: none" rfl (by decide)⟩

/-- C8: every output of `convert_html` ends with exactly one newline: its
last character is `\n` and the character before it, when present, is not
`\n` (in fact not whitespace at all). -/
theorem c8_ends_one_newline (doc : List HtmlNode) :
    endsOneLF (convert_html doc) = true := by
  show endsOneLF (postprocess _) = true
  exact endsOneLF_postprocess _

/-- C9: no line of the output of `convert_html` ends with a space or a tab
character, and the per-line trailing-whitespace removal step only removes
whitespace — every line equals its rstripped form followed by a run of
whitespace, and a line ending in the backslash hard-break marker is left
entirely unchanged. -/
theorem c9_no_trailing_ws (doc : List HtmlNode) (l : List Char) :
    goodLines (convert_html doc).toList = true ∧
      (∃ w, l = pyRstrip l ++ w ∧ w.all pyIsSpace = true) ∧
      pyRstrip (l ++ ['\\']) = l ++ ['\\'] := by
  refine ⟨?_, pyRstrip_decomp l, pyRstrip_append_last (by decide) l⟩
  show goodLines (postprocessL _) = true
  exact goodLines_postprocessL _

/-- C10: the hidden-element check is an unanchored substring search of the
raw `style` attribute value, so it over-matches: values such as
"my-display: none" and "display: nonexistent" satisfy it, and an element
styled "my-display: none" is deleted with its whole subtree, its text
never reaching the output. -/
theorem c10_hidden_overmatch :
    containsDisplayNone "my-display: none" = true ∧
      containsDisplayNone "display: nonexistent" = true ∧
      cleanNodes [.element "div" [("style", "my-display: none")]
        [.text "kept"]] = [] ∧
      strOccurs "kept" (convert_html
        [.element "div" [("style", "my-display: none")] [.text "kept"],
         .element "p" [] [.text "shown"]]) = false ∧
      strOccurs "shown" (convert_html
        [.element "div" [("style", "my-display: none")] [.text "kept"],
         .element "p" [] [.text "shown"]]) = true :=
  ⟨by decide, by decide, rfl, by decide, by decide⟩
